import Mathlib

/-!
Verification development for the FaceMesh3D visualization component
(`src/components/FaceMesh3D.jsx` plus the surrounding `App.jsx`).

The per-frame geometry pipeline (coordinate mapping, point/line buffer
maintenance, K-nearest-neighbor wireframe reconstruction), the gaze
temporal-smoothing state machine, the 9-point calibration controller and
the FPS accounting are embedded shallowly: coordinates and wall-clock
times are rationals, JS arrays are lists, the JS `Set` of canonicalized
edge keys is a `Finset (ℕ × ℕ)`.
-/

namespace FocusTracker

/-- Display/source coordinates and times are modelled as rationals. -/
abbrev Point3 := ℚ × ℚ × ℚ

def dflt : Point3 := (0, 0, 0)

/-- Constant `CONNECT_K = 2`: neighbors per point in the wireframe. -/
def CONNECT_K : ℕ := 2

/-- Constant `LINES_UPDATE_EVERY_N_FRAMES = 2`: throttle for line recomputation. -/
def LINES_UPDATE_EVERY_N_FRAMES : ℕ := 2

/-- Constant `DEPTH_SCALE = 50`: z scaling for visual depth. -/
def DEPTH_SCALE : ℚ := 50

/-- Constant `DRAW_LINES = true`: nearest-neighbor connections are enabled. -/
def DRAW_LINES : Bool := true

/-- Constant `OFFSCREEN_DELAY_MS = 250`: required away-time before flagging off-screen. -/
def OFFSCREEN_DELAY_MS : ℚ := 250

/-- Constant `margin = 40` of the gaze listener: viewport margin for the inside test. -/
def GAZE_MARGIN : ℚ := 40

/-- Constant `CALIBRATION_PER_POINT = 5`: click quota per calibration point. -/
def CALIBRATION_PER_POINT : ℕ := 5

/-- JS `Math.round`: round half toward positive infinity. -/
def jsRound (q : ℚ) : ℤ := ⌊q + 1/2⌋

/-! ## CoordinateMapper (`toDisplayPoints`)

`toDisplayPoints` maps model pixel coordinates to canvas CSS pixels,
accounting for `object-fit: cover` scaling.  Unknown video dimensions
(`video.videoWidth`/`videoHeight` being 0, the JS falsy fallback
`video.videoWidth || cw`) fall back to the display dimensions.
The JS `z || 0` defaults a missing z to 0; landmarks are modelled as
full numeric triples, on which it is the identity. -/

def toDisplayPoints (cw ch vwRaw vhRaw : ℚ) (points : List Point3) : List Point3 :=
  if points = [] then points
  else
    let vw := if vwRaw = 0 then cw else vwRaw
    let vh := if vhRaw = 0 then ch else vhRaw
    let s := max (cw / vw) (ch / vh)
    let dx := (cw - vw * s) / 2
    let dy := (ch - vh * s) / 2
    points.map (fun p => (p.1 * s + dx, p.2.1 * s + dy, p.2.2))

/-! ## GazeStateMachine (`wg.setGazeListener` callback)

A sample is `some (x, y)` when WebGazer produced numeric coordinates
(`valid`), `none` otherwise.  `now` is the wall clock supplied with the
sample (`performance.now()` at processing time). -/

structure GazeState where
  lastOnScreenAt : ℚ
  gazeXY : Option (ℤ × ℤ)
  offScreen : Bool
deriving DecidableEq, Repr

def insideViewport (w h x y : ℚ) : Bool :=
  decide (-GAZE_MARGIN ≤ x) && decide (x ≤ w + GAZE_MARGIN) &&
  decide (-GAZE_MARGIN ≤ y) && decide (y ≤ h + GAZE_MARGIN)

def stepGaze (w h : ℚ) (st : GazeState) (sample : Option (ℚ × ℚ)) (now : ℚ) :
    GazeState :=
  let st1 :=
    match sample with
    | some (x, y) =>
      { st with
        gazeXY := some (jsRound x, jsRound y)
        lastOnScreenAt := if insideViewport w h x y then now else st.lastOnScreenAt }
    | none => { st with gazeXY := none }
  { st1 with offScreen := decide (now - st1.lastOnScreenAt > OFFSCREEN_DELAY_MS) }

def runGaze (w h : ℚ) (st : GazeState) (evs : List (Option (ℚ × ℚ) × ℚ)) :
    GazeState :=
  evs.foldl (fun s e => stepGaze w h s e.1 e.2) st

/-- Wall-clock time of the last valid sample lying inside the expanded
viewport (the initial `lastOnScreenAt` when there is none): the reference
value `offScreen` is compared against. -/
def lastInsideTime (w h : ℚ) (t0 : ℚ) (evs : List (Option (ℚ × ℚ) × ℚ)) : ℚ :=
  evs.foldl
    (fun acc e =>
      match e.1 with
      | some (x, y) => if insideViewport w h x y then e.2 else acc
      | none => acc)
    t0

/-! ## CalibrationController (`startCalibration` / `stopCalibration` /
the `CALIB_POINTS.map` click handler)

The trained data of the external predictor is modelled by the number of
retained training samples (`wgData`), which `wg.clearData()` resets. -/

structure CalibState where
  calibrating : Bool
  counts : List ℕ
  wgData : ℕ
  mouseListeners : Bool
deriving DecidableEq, Repr

def startCalibration (st : CalibState) : CalibState :=
  { st with
    calibrating := true
    counts := List.replicate 9 0
    wgData := 0
    mouseListeners := true }

def stopCalibration (st : CalibState) : CalibState :=
  { st with calibrating := false, mouseListeners := false }

def clickCalibPoint (st : CalibState) (idx : ℕ) : CalibState :=
  let next := st.counts.set idx (min CALIBRATION_PER_POINT (st.counts.getD idx 0 + 1))
  let st1 := { st with counts := next }
  if next.all (fun c => CALIBRATION_PER_POINT ≤ c) then stopCalibration st1 else st1

/-! ## RenderLoop FPS accounting -/

structure FpsState where
  frames : ℕ
  lastTime : ℚ
  lastFpsUpdate : ℚ
  fps : ℤ
deriving DecidableEq, Repr

/-- One pass of the tail of `loop`: increment the frame counter, and on
`now - lastFpsUpdate > 500` report `round(frames*1000/delta)` and reset.
Returns the new state and the reported FPS value, if any. -/
def stepFps (st : FpsState) (now : ℚ) : FpsState × Option ℤ :=
  let frames := st.frames + 1
  if now - st.lastFpsUpdate > 500 then
    let delta := now - st.lastTime
    let newFps := jsRound ((frames : ℚ) * 1000 / delta)
    (⟨0, now, now, newFps⟩, some newFps)
  else
    ({ st with frames := frames }, none)

/-! ## GeometryBuffer (`updateGeometry`)

The Three.js position attribute array is a flat list of rationals.
`boundingFor` records the positions snapshot the bounding sphere was
last computed from (`computeBoundingSphere()` syncs it to the current
array). -/

structure Geom where
  positions : List ℚ
  boundingFor : Option (List ℚ)
deriving DecidableEq, Repr

/-- Write landmark `i` into slots `3i, 3i+1, 3i+2`: `x`, `y`, and
`-z * DEPTH_SCALE`. -/
def setTriple (a : List ℚ) (i : ℕ) (p : Point3) : List ℚ :=
  ((a.set (3 * i) p.1).set (3 * i + 1) p.2.1).set (3 * i + 2) (-p.2.2 * DEPTH_SCALE)

/-- The `for (let i = 0; i < points.length; i++)` write loop. -/
def writePositions (arr : List ℚ) (pts : List Point3) : List ℚ :=
  (List.range pts.length).foldl (fun a i => setTriple a i (pts.getD i dflt)) arr

/-- Function `updateGeometry`: on first use allocate a buffer of length
`3 * points.length`; reallocate when the stored array length differs from
`3 * points.length`; then overwrite all triples in place and recompute
the bounding sphere.  Returns the new buffer and whether a reallocation
happened. -/
def updateGeometry (prev : Option Geom) (pts : List Point3) : Geom × Bool :=
  let g0 := prev.getD ⟨List.replicate (3 * pts.length) 0, none⟩
  let realloc := g0.positions.length ≠ 3 * pts.length
  let base := if realloc then List.replicate (3 * pts.length) (0 : ℚ) else g0.positions
  let arr := writePositions base pts
  (⟨arr, some arr⟩, realloc)

/-! ## NeighborGraphBuilder (the KNN block inside `loop`)

`best` is the JS array of `[d2, j]` pairs, kept ascending by `d2`
(`best.sort((a, b) => a[0] - b[0])`).  Pushing an element at the end (or
overwriting the last slot) and re-running the stable sort on an
already-sorted array is exactly an ordered insertion that places the new
pair after all pairs with a key `≤` its own; `insSorted` performs that
insertion directly. -/

def d2 (p q : Point3) : ℚ :=
  (p.1 - q.1) * (p.1 - q.1) + (p.2.1 - q.2.1) * (p.2.1 - q.2.1) +
    (p.2.2 - q.2.2) * (p.2.2 - q.2.2)

def insSorted : List (ℚ × ℕ) → ℚ × ℕ → List (ℚ × ℕ)
  | [], e => [e]
  | a :: rest, e => if e.1 < a.1 then e :: a :: rest else a :: insSorted rest e

/-- One candidate step: `if (best.length < CONNECT_K) push-and-sort;
else if (d2 < best[CONNECT_K-1][0]) replace-last-and-sort`. -/
def insertBest (best : List (ℚ × ℕ)) (e : ℚ × ℕ) : List (ℚ × ℕ) :=
  if best.length < CONNECT_K then insSorted best e
  else if e.1 < ((best.getLast?.getD (0, 0)).1) then insSorted best.dropLast e
  else best

/-- The inner `for (let j = 0; j < n; j++)` loop for point `i`, run over
`j < m`. -/
def bestAux (pts : List Point3) (i m : ℕ) : List (ℚ × ℕ) :=
  (List.range m).foldl
    (fun best j =>
      if i = j then best
      else insertBest best (d2 (pts.getD i dflt) (pts.getD j dflt), j))
    []

/-- The top-`CONNECT_K` candidate list of point `i`. -/
def bestK (pts : List Point3) (i : ℕ) : List (ℚ × ℕ) :=
  bestAux pts i pts.length

/-- Canonicalized undirected edge key, the JS string `min + "," + max`. -/
def edgeKey (i j : ℕ) : ℕ × ℕ := (min i j, max i j)

/-- The deduplicating `edges` set built over all points. -/
def knnEdges (pts : List Point3) : Finset (ℕ × ℕ) :=
  (Finset.range pts.length).biUnion
    (fun i => ((bestK pts i).map (fun e => edgeKey i e.2)).toFinset)

/-! ## Line-recompute throttling (`lineFrameCounter`)

`stepLines` covers the `if (pts.length)` body of `loop` as far as the
wireframe is concerned: the counter post-increments on every invocation
that has points, and the edge set is recomputed only when the old
counter value was divisible by `LINES_UPDATE_EVERY_N_FRAMES`.  Returns
the new state and whether a recompute happened. -/

structure LinesState where
  lineFrameCounter : ℕ
  edges : Option (Finset (ℕ × ℕ))
deriving DecidableEq

def stepLines (st : LinesState) (pts : List Point3) : LinesState × Bool :=
  if pts.length ≠ 0 then
    if DRAW_LINES && decide (st.lineFrameCounter % LINES_UPDATE_EVERY_N_FRAMES = 0) then
      (⟨st.lineFrameCounter + 1, some (knnEdges pts)⟩, true)
    else
      ({ st with lineFrameCounter := st.lineFrameCounter + 1 }, false)
  else (st, false)

def runLines (st : LinesState) (frames : List (List Point3)) : LinesState :=
  frames.foldl (fun s f => (stepLines s f).1) st

/-! ## List helper lemmas -/

theorem getD_set_eq {α : Type _} (l : List α) (i : ℕ) (v d : α) (h : i < l.length) :
    (l.set i v).getD i d = v := by
  rw [List.getD_eq_getElem?_getD, List.getElem?_set_self' ]
  simp [h]

theorem getD_set_ne {α : Type _} (l : List α) (i j : ℕ) (v d : α) (h : i ≠ j) :
    (l.set i v).getD j d = l.getD j d := by
  rw [List.getD_eq_getElem?_getD, List.getElem?_set_ne h, ← List.getD_eq_getElem?_getD]

theorem set_getD_self {α : Type _} (l : List α) (i : ℕ) (d : α) (h : i < l.length) :
    l.set i (l.getD i d) = l := by
  induction l generalizing i with
  | nil => simp at h
  | cons a t ih =>
    cases i with
    | zero => simp [List.getD]
    | succ k =>
      simp only [List.length_cons, Nat.succ_lt_succ_iff] at h
      simp only [List.getD_cons_succ, List.set]
      rw [ih k h]

/-! ## GeometryBuffer lemmas -/

theorem length_setTriple (a : List ℚ) (i : ℕ) (p : Point3) :
    (setTriple a i p).length = a.length := by
  simp [setTriple]

theorem length_fold_setTriple (pts : List Point3) (l : List ℕ) (arr : List ℚ) :
    (l.foldl (fun a i => setTriple a i (pts.getD i dflt)) arr).length = arr.length := by
  induction l generalizing arr with
  | nil => rfl
  | cons j t ih => rw [List.foldl_cons, ih, length_setTriple]

theorem length_writePositions (arr : List ℚ) (pts : List Point3) :
    (writePositions arr pts).length = arr.length :=
  length_fold_setTriple pts _ arr

theorem updateGeometry_length (prev : Option Geom) (pts : List Point3) :
    (updateGeometry prev pts).1.positions.length = 3 * pts.length := by
  cases prev with
  | none => simp [updateGeometry, length_writePositions]
  | some g =>
    by_cases h : g.positions.length = 3 * pts.length <;>
      simp [updateGeometry, length_writePositions, h]

theorem updateGeometry_realloc (g : Geom) (pts : List Point3) :
    (updateGeometry (some g) pts).2 = true ↔ g.positions.length ≠ 3 * pts.length := by
  by_cases h : g.positions.length = 3 * pts.length <;> simp [updateGeometry, h]

/-- The updated buffer is always the write loop run over a base array of
length exactly `3 * pts.length`, with the bounding volume synced to it. -/
theorem updateGeometry_eq (prev : Option Geom) (pts : List Point3) :
    ∃ base : List ℚ, base.length = 3 * pts.length ∧
      (updateGeometry prev pts).1 =
        ⟨writePositions base pts, some (writePositions base pts)⟩ := by
  cases prev with
  | none =>
    exact ⟨List.replicate (3 * pts.length) 0, by simp, by simp [updateGeometry]⟩
  | some g =>
    by_cases hl : g.positions.length = 3 * pts.length
    · exact ⟨g.positions, hl, by simp [updateGeometry, hl]⟩
    · exact ⟨List.replicate (3 * pts.length) 0, by simp, by simp [updateGeometry, hl]⟩

/-- Positions slots `3i`, `3i+1`, `3i+2` of the array after the write
loop, for every in-range point index `i`. -/
theorem writePositions_getD (arr : List ℚ) (pts : List Point3)
    (hlen : 3 * pts.length ≤ arr.length) :
    ∀ i < pts.length,
      (writePositions arr pts).getD (3 * i) 0 = (pts.getD i dflt).1 ∧
      (writePositions arr pts).getD (3 * i + 1) 0 = (pts.getD i dflt).2.1 ∧
      (writePositions arr pts).getD (3 * i + 2) 0 =
        -(pts.getD i dflt).2.2 * DEPTH_SCALE := by
  have key : ∀ m ≤ pts.length, ∀ i < m,
      ((List.range m).foldl (fun a j => setTriple a j (pts.getD j dflt)) arr).getD
          (3 * i) 0 = (pts.getD i dflt).1 ∧
      ((List.range m).foldl (fun a j => setTriple a j (pts.getD j dflt)) arr).getD
          (3 * i + 1) 0 = (pts.getD i dflt).2.1 ∧
      ((List.range m).foldl (fun a j => setTriple a j (pts.getD j dflt)) arr).getD
          (3 * i + 2) 0 = -(pts.getD i dflt).2.2 * DEPTH_SCALE := by
    intro m
    induction m with
    | zero => intro _ i hi; omega
    | succ k ih =>
      intro hk i hi
      rw [List.range_succ, List.foldl_append]
      set A := (List.range k).foldl (fun a j => setTriple a j (pts.getD j dflt)) arr
        with hA
      have hAlen : A.length = arr.length := length_fold_setTriple pts _ arr
      simp only [List.foldl_cons, List.foldl_nil]
      rcases Nat.lt_succ_iff_lt_or_eq.mp hi with hik | hik
      · have h0 : (setTriple A k (pts.getD k dflt)).getD (3 * i) 0 = A.getD (3 * i) 0 := by
          unfold setTriple
          rw [getD_set_ne _ _ _ _ _ (by omega), getD_set_ne _ _ _ _ _ (by omega),
            getD_set_ne _ _ _ _ _ (by omega)]
        have h1 : (setTriple A k (pts.getD k dflt)).getD (3 * i + 1) 0 =
            A.getD (3 * i + 1) 0 := by
          unfold setTriple
          rw [getD_set_ne _ _ _ _ _ (by omega), getD_set_ne _ _ _ _ _ (by omega),
            getD_set_ne _ _ _ _ _ (by omega)]
        have h2 : (setTriple A k (pts.getD k dflt)).getD (3 * i + 2) 0 =
            A.getD (3 * i + 2) 0 := by
          unfold setTriple
          rw [getD_set_ne _ _ _ _ _ (by omega), getD_set_ne _ _ _ _ _ (by omega),
            getD_set_ne _ _ _ _ _ (by omega)]
        rw [h0, h1, h2]
        exact ih (by omega) i hik
      · subst hik
        have hb2 : 3 * i + 2 < A.length := by omega
        have hb1 : 3 * i + 1 < A.length := by omega
        have hb0 : 3 * i < A.length := by omega
        refine ⟨?_, ?_, ?_⟩
        · unfold setTriple
          rw [getD_set_ne _ _ _ _ _ (by omega), getD_set_ne _ _ _ _ _ (by omega),
            getD_set_eq _ _ _ _ (by simpa using hb0)]
        · unfold setTriple
          rw [getD_set_ne _ _ _ _ _ (by omega),
            getD_set_eq _ _ _ _ (by simpa using hb1)]
        · unfold setTriple
          rw [getD_set_eq _ _ _ _ (by simpa using hb2)]
  exact key pts.length le_rfl

/-! ## GazeStateMachine lemmas -/

theorem stepGaze_lastOnScreenAt (w h : ℚ) (st : GazeState) (s : Option (ℚ × ℚ))
    (now : ℚ) :
    (stepGaze w h st s now).lastOnScreenAt =
      match s with
      | some (x, y) => if insideViewport w h x y then now else st.lastOnScreenAt
      | none => st.lastOnScreenAt := by
  rcases s with _ | ⟨x, y⟩ <;> rfl

theorem stepGaze_offScreen (w h : ℚ) (st : GazeState) (s : Option (ℚ × ℚ)) (now : ℚ) :
    (stepGaze w h st s now).offScreen =
      decide (now - (stepGaze w h st s now).lastOnScreenAt > OFFSCREEN_DELAY_MS) := by
  rcases s with _ | ⟨x, y⟩ <;> rfl

theorem runGaze_lastOnScreenAt (w h : ℚ) (st : GazeState)
    (evs : List (Option (ℚ × ℚ) × ℚ)) :
    (runGaze w h st evs).lastOnScreenAt = lastInsideTime w h st.lastOnScreenAt evs := by
  induction evs generalizing st with
  | nil => rfl
  | cons e rest ih =>
    rw [runGaze, List.foldl_cons, lastInsideTime, List.foldl_cons]
    rw [← runGaze, ← lastInsideTime, ih]
    congr 1
    rw [stepGaze_lastOnScreenAt]

/-! ## Claim theorems -/

/-- C3: for every landmark `(x, y, z)`, display dimensions `(cw, ch)` and
source dimensions `(vw, vh)` with `vw, vh > 0`, `toDisplayPoints` outputs
exactly `(x*s + dx, y*s + dy, z)` with `s = max (cw/vw) (ch/vh)`,
`dx = (cw - vw*s)/2`, `dy = (ch - vh*s)/2`; and when the source dimensions
are unknown (reported as 0) they are treated as equal to the display
dimensions, yielding `s = 1` and zero offsets, so the points are returned
unchanged. -/
theorem C3_coordinate_mapper (cw ch vw vh : ℚ) (pts : List Point3)
    (hvw : 0 < vw) (hvh : 0 < vh) :
    (toDisplayPoints cw ch vw vh pts =
      pts.map (fun p =>
        (p.1 * max (cw / vw) (ch / vh) +
            (cw - vw * max (cw / vw) (ch / vh)) / 2,
         p.2.1 * max (cw / vw) (ch / vh) +
            (ch - vh * max (cw / vw) (ch / vh)) / 2,
         p.2.2))) ∧
    (cw ≠ 0 → ch ≠ 0 → toDisplayPoints cw ch 0 0 pts = pts) := by
  constructor
  · rcases eq_or_ne pts [] with hp | hp
    · subst hp; rfl
    · rw [toDisplayPoints, if_neg hp]
      simp only [hvw.ne', hvh.ne', if_false]
  · intro hcw hch
    rcases eq_or_ne pts [] with hp | hp
    · subst hp; rfl
    · rw [toDisplayPoints, if_neg hp]
      simp [div_self hcw, div_self hch]

/-- C3 witness: concrete dimensions `cw=ch=480`, `vw=640`, `vh=480`
satisfy the positivity hypotheses, and the mapper satisfies the cover
transform equation there. -/
theorem C3_coordinate_mapper_witness :
    ((0:ℚ) < 640 ∧ (0:ℚ) < 480) ∧
    (toDisplayPoints 480 480 640 480 [(320, 240, 5)] =
      [(320, 240, 5)].map (fun p =>
        (p.1 * max ((480:ℚ) / 640) ((480:ℚ) / 480) +
            (480 - 640 * max ((480:ℚ) / 640) ((480:ℚ) / 480)) / 2,
         p.2.1 * max ((480:ℚ) / 640) ((480:ℚ) / 480) +
            (480 - 480 * max ((480:ℚ) / 640) ((480:ℚ) / 480)) / 2,
         p.2.2))) :=
  ⟨⟨by decide, by decide⟩,
    (C3_coordinate_mapper 480 480 640 480 [(320, 240, 5)] (by decide) (by decide)).1⟩

/-- C4: after each geometry update the vertex array length equals three
times the point count, and on an update following a previous update a
reallocation happens exactly when the point count changed. -/
theorem C4_geometry_buffer (prev : Option Geom) (pts1 pts2 : List Point3) :
    ((updateGeometry prev pts1).1.positions.length = 3 * pts1.length) ∧
    ((updateGeometry (some (updateGeometry prev pts1).1) pts2).1.positions.length =
      3 * pts2.length) ∧
    ((updateGeometry (some (updateGeometry prev pts1).1) pts2).2 = true ↔
      pts2.length ≠ pts1.length) := by
  refine ⟨updateGeometry_length prev pts1, updateGeometry_length _ pts2, ?_⟩
  rw [updateGeometry_realloc, updateGeometry_length prev pts1]
  omega

/-- C5: after every geometry update, the stored vertex triple at index
`i` is `(xᵢ, yᵢ, -zᵢ * DEPTH_SCALE)` with `DEPTH_SCALE = 50 > 0`, and the
bounding volume is recomputed from the freshly written array. -/
theorem C5_depth_write (prev : Option Geom) (pts : List Point3) (i : ℕ)
    (hi : i < pts.length) :
    ((updateGeometry prev pts).1.positions.getD (3 * i) 0 = (pts.getD i dflt).1) ∧
    ((updateGeometry prev pts).1.positions.getD (3 * i + 1) 0 =
      (pts.getD i dflt).2.1) ∧
    ((updateGeometry prev pts).1.positions.getD (3 * i + 2) 0 =
      -(pts.getD i dflt).2.2 * DEPTH_SCALE) ∧
    (0 < DEPTH_SCALE ∧ DEPTH_SCALE = 50) ∧
    ((updateGeometry prev pts).1.boundingFor =
      some (updateGeometry prev pts).1.positions) := by
  have hbase : ∀ base : List ℚ, 3 * pts.length ≤ base.length →
      (writePositions base pts).getD (3 * i) 0 = (pts.getD i dflt).1 ∧
      (writePositions base pts).getD (3 * i + 1) 0 = (pts.getD i dflt).2.1 ∧
      (writePositions base pts).getD (3 * i + 2) 0 =
        -(pts.getD i dflt).2.2 * DEPTH_SCALE :=
    fun base hb => writePositions_getD base pts hb i hi
  have hds : (0:ℚ) < DEPTH_SCALE ∧ DEPTH_SCALE = (50:ℚ) := by
    constructor
    · rw [DEPTH_SCALE]; decide
    · rfl
  obtain ⟨base, hblen, heq⟩ := updateGeometry_eq prev pts
  have h := hbase base (le_of_eq hblen.symm)
  rw [heq]
  exact ⟨h.1, h.2.1, h.2.2, hds, rfl⟩

/-- C5 witness: the single landmark `(1, 2, 3)` at index 0 is stored as
`(1, 2, -150)` and the bounding volume is synced. -/
theorem C5_depth_write_witness :
    0 < ([((1:ℚ), (2:ℚ), (3:ℚ))] : List Point3).length ∧
    ((updateGeometry none [((1:ℚ), 2, 3)]).1.positions.getD 0 0 =
        ([((1:ℚ), 2, 3)].getD 0 dflt).1 ∧
      (updateGeometry none [((1:ℚ), 2, 3)]).1.positions.getD 1 0 =
        ([((1:ℚ), 2, 3)].getD 0 dflt).2.1 ∧
      (updateGeometry none [((1:ℚ), 2, 3)]).1.positions.getD 2 0 =
        -([((1:ℚ), 2, 3)].getD 0 dflt).2.2 * DEPTH_SCALE ∧
      (0 < DEPTH_SCALE ∧ DEPTH_SCALE = 50) ∧
      (updateGeometry none [((1:ℚ), 2, 3)]).1.boundingFor =
        some (updateGeometry none [((1:ℚ), 2, 3)]).1.positions) :=
  ⟨by decide, by
    have h := C5_depth_write none [((1:ℚ), 2, 3)] 0 (by decide)
    simpa using h⟩

/-- C7 counterexample: an invalid sample does not leave the gaze state
untouched apart from clearing the position — processing an invalid sample
at `now = 300` against `lastOnScreenAt = 0` flips `offScreen` from
`false` to `true`, so the resulting state differs from the input state
with only `gazeXY` cleared. -/
theorem C7_counterexample :
    stepGaze 100 100 ⟨0, some (1, 2), false⟩ none 300 ≠
      { lastOnScreenAt := 0, gazeXY := none, offScreen := false } := by
  have h : (stepGaze 100 100 ⟨0, some (1, 2), false⟩ none 300).offScreen = true := by
    show decide ((300:ℚ) - 0 > OFFSCREEN_DELAY_MS) = true
    rw [decide_eq_true_eq, OFFSCREEN_DELAY_MS]
    norm_num
  intro he
  rw [he] at h
  exact absurd h (by decide)

/-- C7 (amended): processing an invalid sample clears the last known
gaze position to `none` and never resets `lastOnScreenAt`, but
`offScreen` is still recomputed from the elapsed time against the
unchanged `lastOnScreenAt` (rather than the whole state being left
untouched). -/
theorem C7_invalid_sample (w h : ℚ) (st : GazeState) (now : ℚ) :
    (stepGaze w h st none now).lastOnScreenAt = st.lastOnScreenAt ∧
    (stepGaze w h st none now).gazeXY = none ∧
    stepGaze w h st none now =
      { st with gazeXY := none,
                offScreen := decide (now - st.lastOnScreenAt > OFFSCREEN_DELAY_MS) } :=
  ⟨rfl, rfl, rfl⟩

/-- The click handler always leaves the counts list as a saturating
in-place update of slot `idx`. -/
theorem clickCalibPoint_counts (st : CalibState) (idx : ℕ) :
    (clickCalibPoint st idx).counts =
      st.counts.set idx (min CALIBRATION_PER_POINT (st.counts.getD idx 0 + 1)) := by
  rw [clickCalibPoint]
  split
  · rfl
  · rfl

/-- C8: `start()` resets all 9 click counts to zero and clears the
trained data of the external predictor; a click on point `idx` saturates that
count at the quota (so a click on a point already at quota leaves the
counts unchanged); and as soon as all counts reach the quota the
controller automatically leaves the calibrating state. -/
theorem C8_calibration :
    (∀ st : CalibState, (startCalibration st).counts = List.replicate 9 0 ∧
      (startCalibration st).wgData = 0 ∧ (startCalibration st).calibrating = true) ∧
    (∀ (st : CalibState) (idx : ℕ), idx < st.counts.length →
      (clickCalibPoint st idx).counts.getD idx 0 =
        min CALIBRATION_PER_POINT (st.counts.getD idx 0 + 1)) ∧
    (∀ (st : CalibState) (idx : ℕ), idx < st.counts.length →
      st.counts.getD idx 0 = CALIBRATION_PER_POINT →
      (clickCalibPoint st idx).counts = st.counts) ∧
    (∀ (st : CalibState) (idx : ℕ),
      ((clickCalibPoint st idx).counts.all fun c => CALIBRATION_PER_POINT ≤ c) = true →
      (clickCalibPoint st idx).calibrating = false) := by
  refine ⟨fun st => ⟨rfl, rfl, rfl⟩, ?_, ?_, ?_⟩
  · intro st idx hidx
    rw [clickCalibPoint_counts, getD_set_eq _ _ _ _ hidx]
  · intro st idx hidx hq
    rw [clickCalibPoint_counts, hq]
    have : min CALIBRATION_PER_POINT (CALIBRATION_PER_POINT + 1) =
        CALIBRATION_PER_POINT := by decide
    rw [this, ← hq, set_getD_self _ _ _ hidx]
  · intro st idx hall
    rw [clickCalibPoint_counts] at hall
    rw [clickCalibPoint]
    split
    · rfl
    · rename_i hc
      exact absurd hall hc

/-- C8 witness: from a calibrating state with all counts at the quota
except slot 0 at 4, a click on slot 0 saturates it and exits the
calibrating state; clicking an already-saturated slot leaves the counts
unchanged. -/
theorem C8_calibration_witness :
    ((0:ℕ) < ([4, 5, 5, 5, 5, 5, 5, 5, 5] : List ℕ).length ∧
      (1:ℕ) < ([5, 5, 5, 5, 5, 5, 5, 5, 5] : List ℕ).length ∧
      ([5, 5, 5, 5, 5, 5, 5, 5, 5] : List ℕ).getD 1 0 = CALIBRATION_PER_POINT) ∧
    ((clickCalibPoint ⟨true, [4, 5, 5, 5, 5, 5, 5, 5, 5], 0, true⟩ 0).counts.getD 0 0 =
      min CALIBRATION_PER_POINT (([4, 5, 5, 5, 5, 5, 5, 5, 5] : List ℕ).getD 0 0 + 1)) ∧
    ((clickCalibPoint ⟨true, [5, 5, 5, 5, 5, 5, 5, 5, 5], 0, true⟩ 1).counts =
      [5, 5, 5, 5, 5, 5, 5, 5, 5]) :=
  ⟨⟨by decide, by decide, by decide⟩,
    C8_calibration.2.1 ⟨true, [4, 5, 5, 5, 5, 5, 5, 5, 5], 0, true⟩ 0 (by decide),
    C8_calibration.2.2.1 ⟨true, [5, 5, 5, 5, 5, 5, 5, 5, 5], 0, true⟩ 1 (by decide)
      (by decide)⟩

/-- C9 counterexample: with the frame counter at 3 and the last report at
time 0, a frame at `now = 500` has exactly 500 ms elapsed — at least the
threshold — yet no FPS report is produced, because the code requires the
elapsed time to strictly exceed 500 ms. -/
theorem C9_counterexample :
    ((500:ℚ) - (⟨3, 0, 0, 7⟩ : FpsState).lastFpsUpdate ≥ 500) ∧
    (stepFps ⟨3, 0, 0, 7⟩ 500).2 = none := by
  constructor
  · norm_num
  · have hc : ¬((500:ℚ) - (0:ℚ) > 500) := by norm_num
    simp [stepFps, hc]

/-- C9 (amended): whenever strictly more than 500 ms have elapsed since
the last report, the reported FPS equals
`round(framesSinceLastReport * 1000 / elapsedMs)` and both the frame
counter and the report timestamps are reset to `now`; no report is
produced when the elapsed time is at most 500 ms (`lastTime` tracks the
last report time, equal to `lastFpsUpdate` by the loop invariant). -/
theorem C9_fps (st : FpsState) (now : ℚ) (hinv : st.lastTime = st.lastFpsUpdate) :
    (now - st.lastFpsUpdate > 500 →
      stepFps st now =
        (⟨0, now, now,
            jsRound (((st.frames + 1 : ℕ) : ℚ) * 1000 / (now - st.lastFpsUpdate))⟩,
          some (jsRound (((st.frames + 1 : ℕ) : ℚ) * 1000 / (now - st.lastFpsUpdate))))) ∧
    (¬(now - st.lastFpsUpdate > 500) →
      stepFps st now = ({ st with frames := st.frames + 1 }, none)) := by
  constructor
  · intro hgt
    rw [stepFps, if_pos hgt, hinv]
  · intro hle
    rw [stepFps, if_neg hle]

/-- C9 witness: at `now = 600` with last report at 0 and 3 frames
counted, a report of `round(4000/600)` is produced and the counters
reset. -/
theorem C9_fps_witness :
    ((⟨3, 0, 0, 7⟩ : FpsState).lastTime = (⟨3, 0, 0, 7⟩ : FpsState).lastFpsUpdate ∧
      (600:ℚ) - (⟨3, 0, 0, 7⟩ : FpsState).lastFpsUpdate > 500) ∧
    stepFps ⟨3, 0, 0, 7⟩ 600 =
      (⟨0, 600, 600, jsRound ((((3:ℕ) + 1 : ℕ) : ℚ) * 1000 / ((600:ℚ) - 0))⟩,
        some (jsRound ((((3:ℕ) + 1 : ℕ) : ℚ) * 1000 / ((600:ℚ) - 0)))) :=
  ⟨⟨rfl, by norm_num⟩,
    (C9_fps ⟨3, 0, 0, 7⟩ 600 rfl).1 (by norm_num)⟩

/-- C2: after processing each sample, `offScreen` holds iff the elapsed
time since the last valid sample inside the margin-expanded viewport
(or since the initial `lastOnScreenAt` when there is none) exceeds
`OFFSCREEN_DELAY_MS`; an invalid sample never resets `lastOnScreenAt`;
and an outside-then-inside pair of valid samples whose first member
arrives within the delay window never makes `offScreen` become true. -/
theorem C2_gaze_offscreen (w h : ℚ) (st : GazeState) :
    (∀ (evs : List (Option (ℚ × ℚ) × ℚ)) (s : Option (ℚ × ℚ)) (now : ℚ),
      ((runGaze w h st (evs ++ [(s, now)])).offScreen = true ↔
        now - lastInsideTime w h st.lastOnScreenAt (evs ++ [(s, now)]) >
          OFFSCREEN_DELAY_MS)) ∧
    (∀ now : ℚ, (stepGaze w h st none now).lastOnScreenAt = st.lastOnScreenAt) ∧
    (∀ x1 y1 t1 x2 y2 t2 : ℚ,
      insideViewport w h x1 y1 = false →
      insideViewport w h x2 y2 = true →
      t1 - st.lastOnScreenAt ≤ OFFSCREEN_DELAY_MS →
      (stepGaze w h st (some (x1, y1)) t1).offScreen = false ∧
      (stepGaze w h (stepGaze w h st (some (x1, y1)) t1)
        (some (x2, y2)) t2).offScreen = false) := by
  refine ⟨?_, fun _ => rfl, ?_⟩
  · intro evs s now
    have h1 : runGaze w h st (evs ++ [(s, now)]) =
        stepGaze w h (runGaze w h st evs) s now := by
      rw [runGaze, List.foldl_append]
      rfl
    rw [h1, stepGaze_offScreen, ← h1, runGaze_lastOnScreenAt]
    exact decide_eq_true_iff
  · intro x1 y1 t1 x2 y2 t2 hout hin hle
    have hfirst : (stepGaze w h st (some (x1, y1)) t1).lastOnScreenAt =
        st.lastOnScreenAt := by
      rw [stepGaze_lastOnScreenAt]
      simp [hout]
    constructor
    · rw [stepGaze_offScreen, hfirst, decide_eq_false_iff_not]
      exact not_lt.mpr hle
    · rw [stepGaze_offScreen, stepGaze_lastOnScreenAt]
      simp only [hin, if_true]
      rw [decide_eq_false_iff_not, sub_self, OFFSCREEN_DELAY_MS]
      norm_num

/-- The origin lies inside the 100×100 viewport expanded by the margin. -/
theorem insideViewport_inside_example : insideViewport 100 100 0 0 = true := by
  simp only [insideViewport, GAZE_MARGIN, Bool.and_eq_true, decide_eq_true_eq]
  norm_num

/-- C2 witness: from `lastOnScreenAt = 0`, a valid sample at `(-50, 0)`
(outside the margin) at `t1 = 0` followed by a valid sample at the origin
(inside) at `t2 = 10` keeps `offScreen` false at both steps. -/
theorem C2_gaze_offscreen_witness :
    (insideViewport 100 100 (-50) 0 = false ∧
      insideViewport 100 100 0 0 = true ∧
      (0:ℚ) - (⟨0, none, false⟩ : GazeState).lastOnScreenAt ≤ OFFSCREEN_DELAY_MS) ∧
    ((stepGaze 100 100 ⟨0, none, false⟩ (some (-50, 0)) 0).offScreen = false ∧
      (stepGaze 100 100 (stepGaze 100 100 ⟨0, none, false⟩ (some (-50, 0)) 0)
        (some (0, 0)) 10).offScreen = false) :=
  ⟨⟨rfl, insideViewport_inside_example, by simp [OFFSCREEN_DELAY_MS]⟩,
    (C2_gaze_offscreen 100 100 ⟨0, none, false⟩).2.2 (-50) 0 0 0 0 10 rfl
      insideViewport_inside_example (by simp [OFFSCREEN_DELAY_MS])⟩

/-- The counter advances by one on every frame that carries points. -/
theorem stepLines_counter (st : LinesState) (pts : List Point3) (hp : pts ≠ []) :
    (stepLines st pts).1.lineFrameCounter = st.lineFrameCounter + 1 := by
  rw [stepLines, if_pos (by simpa using hp)]
  split
  · rfl
  · rfl

theorem runLines_counter (st : LinesState) (frames : List (List Point3))
    (hall : ∀ f ∈ frames, f ≠ []) :
    (runLines st frames).lineFrameCounter = st.lineFrameCounter + frames.length := by
  induction frames generalizing st with
  | nil => rfl
  | cons f rest ih =>
    rw [runLines, List.foldl_cons, ← runLines,
      ih _ (fun g hg => hall g (List.mem_cons_of_mem f hg)),
      stepLines_counter st f (hall f (List.mem_cons_self f rest)), List.length_cons]
    omega

/-- C6: the edge-set recompute fires exactly when the pre-increment
counter is divisible by `LINES_UPDATE_EVERY_N_FRAMES` — independent of
the point count — so in a run of the loop on frames that all carry
points, starting from a fresh counter, the recompute fires exactly on
the frames with index `≡ 0 (mod N)`; on every skipped invocation the
previous edge set is left in place. -/
theorem C6_line_throttle :
    (∀ (st : LinesState) (pts : List Point3), pts ≠ [] →
      ((stepLines st pts).2 = true ↔
        st.lineFrameCounter % LINES_UPDATE_EVERY_N_FRAMES = 0)) ∧
    (∀ (st : LinesState) (pts pts' : List Point3), pts ≠ [] → pts' ≠ [] →
      (stepLines st pts).2 = (stepLines st pts').2) ∧
    (∀ (st : LinesState) (pts : List Point3),
      (stepLines st pts).2 = false → (stepLines st pts).1.edges = st.edges) ∧
    (∀ (st : LinesState) (frames : List (List Point3)), (∀ f ∈ frames, f ≠ []) →
      (runLines st frames).lineFrameCounter = st.lineFrameCounter + frames.length) ∧
    (∀ (frames : List (List Point3)) (e : Option (Finset (ℕ × ℕ))) (k : ℕ),
      k < frames.length → (∀ f ∈ frames, f ≠ []) →
      ((stepLines (runLines ⟨0, e⟩ (frames.take k)) (frames.getD k [])).2 = true ↔
        k % LINES_UPDATE_EVERY_N_FRAMES = 0)) := by
  have hstep : ∀ (st : LinesState) (pts : List Point3), pts ≠ [] →
      ((stepLines st pts).2 = true ↔
        st.lineFrameCounter % LINES_UPDATE_EVERY_N_FRAMES = 0) := by
    intro st pts hp
    rw [stepLines, if_pos (by simpa using hp)]
    by_cases hc : st.lineFrameCounter % LINES_UPDATE_EVERY_N_FRAMES = 0
    · simp [DRAW_LINES, hc]
    · simp [DRAW_LINES, hc]
  refine ⟨hstep, ?_, ?_, runLines_counter, ?_⟩
  · intro st pts pts' hp hp'
    by_cases hc : st.lineFrameCounter % LINES_UPDATE_EVERY_N_FRAMES = 0
    · rw [(hstep st pts hp).mpr hc, (hstep st pts' hp').mpr hc]
    · have h1 := (hstep st pts hp).not.mpr hc
      have h2 := (hstep st pts' hp').not.mpr hc
      rw [Bool.not_eq_true] at h1 h2
      rw [h1, h2]
  · intro st pts hf
    rw [stepLines] at hf ⊢
    split at hf
    · split at hf
      · exact absurd hf (by simp)
      · rw [if_pos (by assumption), if_neg (by assumption)]
    · rw [if_neg (by assumption)]
  · intro frames e k hk hall
    have hpts : frames.getD k [] ≠ [] := by
      have hmem : frames.getD k [] ∈ frames := by
        rw [List.getD_eq_getElem?_getD, List.getElem?_eq_getElem hk]
        exact List.getElem_mem hk
      exact hall _ hmem
    rw [hstep _ _ hpts, runLines_counter _ _
      (fun f hf => hall f (List.take_subset k frames hf))]
    rw [List.length_take, Nat.zero_add, min_eq_left (le_of_lt hk)]

/-- C6 witness: on the very first frame carrying a point, the recompute
fires (counter 0 is divisible by 2). -/
theorem C6_line_throttle_witness :
    ([((0:ℚ), (0:ℚ), (0:ℚ))] : List Point3) ≠ [] ∧
    ((stepLines ⟨0, none⟩ [((0:ℚ), (0:ℚ), (0:ℚ))]).2 = true ↔
      0 % LINES_UPDATE_EVERY_N_FRAMES = 0) :=
  ⟨by decide, C6_line_throttle.1 ⟨0, none⟩ [((0:ℚ), (0:ℚ), (0:ℚ))] (by decide)⟩

/-! ## NeighborGraphBuilder lemmas -/

theorem insSorted_perm (l : List (ℚ × ℕ)) (e : ℚ × ℕ) :
    (insSorted l e).Perm (e :: l) := by
  induction l with
  | nil => rfl
  | cons a t ih =>
    rw [insSorted]
    split
    · rfl
    · exact (ih.cons a).trans (List.Perm.swap e a t)

theorem length_insSorted (l : List (ℚ × ℕ)) (e : ℚ × ℕ) :
    (insSorted l e).length = l.length + 1 := by
  rw [(insSorted_perm l e).length_eq, List.length_cons]

theorem mem_insSorted {l : List (ℚ × ℕ)} {e c : ℚ × ℕ} :
    c ∈ insSorted l e ↔ c = e ∨ c ∈ l := by
  rw [(insSorted_perm l e).mem_iff, List.mem_cons]

theorem length_insertBest (l : List (ℚ × ℕ)) (e : ℚ × ℕ) :
    (insertBest l e).length =
      if l.length < CONNECT_K then l.length + 1 else l.length := by
  have hK : 0 < CONNECT_K := by decide
  rw [insertBest]
  split
  · rw [length_insSorted]
  · split
    · rw [length_insSorted, List.length_dropLast]
      omega
    · rfl

theorem mem_insertBest {l : List (ℚ × ℕ)} {e c : ℚ × ℕ}
    (hc : c ∈ insertBest l e) : c = e ∨ c ∈ l := by
  rw [insertBest] at hc
  split at hc
  · exact mem_insSorted.mp hc
  · split at hc
    · rcases mem_insSorted.mp hc with h | h
      · exact Or.inl h
      · exact Or.inr ((List.dropLast_sublist l).subset h)
    · exact Or.inr hc

theorem snd_nodup_insertBest {l : List (ℚ × ℕ)} {e : ℚ × ℕ}
    (hnd : (l.map Prod.snd).Nodup) (he : e.2 ∉ l.map Prod.snd) :
    ((insertBest l e).map Prod.snd).Nodup := by
  rw [insertBest]
  split
  · exact ((insSorted_perm l e).map Prod.snd).nodup_iff.mpr
      (List.nodup_cons.mpr ⟨he, hnd⟩)
  · split
    · have hsub : (l.dropLast.map Prod.snd).Sublist (l.map Prod.snd) :=
        (List.dropLast_sublist l).map Prod.snd
      exact ((insSorted_perm l.dropLast e).map Prod.snd).nodup_iff.mpr
        (List.nodup_cons.mpr ⟨fun hm => he (hsub.subset hm), hnd.sublist hsub⟩)
    · exact hnd

theorem bestAux_succ (pts : List Point3) (i m : ℕ) :
    bestAux pts i (m + 1) =
      if i = m then bestAux pts i m
      else insertBest (bestAux pts i m) (d2 (pts.getD i dflt) (pts.getD m dflt), m) := by
  rw [bestAux, List.range_succ, List.foldl_append, List.foldl_cons, List.foldl_nil,
    ← bestAux]

theorem length_bestAux (pts : List Point3) (i m : ℕ) :
    (bestAux pts i m).length = min (if i < m then m - 1 else m) CONNECT_K := by
  induction m with
  | zero => simp [bestAux]
  | succ k ih =>
    rw [bestAux_succ]
    by_cases hik : i = k
    · rw [if_pos hik, ih]
      subst hik
      rw [if_neg (lt_irrefl i), if_pos (Nat.lt_succ_self i)]
      omega
    · rw [if_neg hik, length_insertBest, ih]
      have hik' : i ≠ k := hik
      split_ifs <;> omega

theorem mem_bestAux (pts : List Point3) (i m : ℕ) :
    ∀ c ∈ bestAux pts i m, c.2 < m ∧ i ≠ c.2 := by
  induction m with
  | zero => intro c hc; simp [bestAux] at hc
  | succ k ih =>
    intro c hc
    rw [bestAux_succ] at hc
    by_cases hik : i = k
    · rw [if_pos hik] at hc
      obtain ⟨h1, h2⟩ := ih c hc
      exact ⟨Nat.lt_succ_of_lt h1, h2⟩
    · rw [if_neg hik] at hc
      rcases mem_insertBest hc with h | h
      · subst h
        exact ⟨Nat.lt_succ_self k, hik⟩
      · obtain ⟨h1, h2⟩ := ih c h
        exact ⟨Nat.lt_succ_of_lt h1, h2⟩

theorem snd_nodup_bestAux (pts : List Point3) (i m : ℕ) :
    ((bestAux pts i m).map Prod.snd).Nodup := by
  induction m with
  | zero => simp [bestAux]
  | succ k ih =>
    rw [bestAux_succ]
    by_cases hik : i = k
    · rw [if_pos hik]; exact ih
    · rw [if_neg hik]
      refine snd_nodup_insertBest ih ?_
      intro hm
      rw [List.mem_map] at hm
      obtain ⟨c, hc, hck⟩ := hm
      have h1 := (mem_bestAux pts i k c hc).1
      rw [hck] at h1
      simp at h1

theorem length_bestK (pts : List Point3) (i : ℕ)
    (h : CONNECT_K + 1 ≤ pts.length) (hi : i < pts.length) :
    (bestK pts i).length = CONNECT_K := by
  rw [bestK, length_bestAux, if_pos hi]
  omega

theorem mem_bestK (pts : List Point3) (i : ℕ) :
    ∀ c ∈ bestK pts i, c.2 < pts.length ∧ i ≠ c.2 :=
  mem_bestAux pts i pts.length

/-! ## Edge-key lemmas -/

theorem edgeKey_fst_lt_snd {i j : ℕ} (h : i ≠ j) :
    (edgeKey i j).1 < (edgeKey i j).2 := by
  rw [edgeKey]
  rcases lt_trichotomy i j with hlt | heq | hgt
  · rw [min_eq_left hlt.le, max_eq_right hlt.le]; exact hlt
  · exact absurd heq h
  · rw [min_eq_right hgt.le, max_eq_left hgt.le]; exact hgt

theorem edgeKey_snd_lt {i j n : ℕ} (hi : i < n) (hj : j < n) :
    (edgeKey i j).2 < n := by
  rw [edgeKey]
  exact max_lt hi hj

theorem edgeKey_endpoint (i j : ℕ) :
    (edgeKey i j).1 = i ∨ (edgeKey i j).2 = i := by
  rw [edgeKey]
  rcases le_total i j with h | h
  · exact Or.inl (min_eq_left h)
  · exact Or.inr (max_eq_left h)

theorem edgeKey_inj {i j j' : ℕ} (_hj : i ≠ j) (_hj' : i ≠ j')
    (h : edgeKey i j = edgeKey i j') : j = j' := by
  rw [edgeKey, edgeKey, Prod.mk.injEq] at h
  omega

theorem mem_knnEdges {pts : List Point3} {e : ℕ × ℕ} :
    e ∈ knnEdges pts ↔
      ∃ i < pts.length, ∃ c ∈ bestK pts i, edgeKey i c.2 = e := by
  simp [knnEdges]

theorem knnEdges_fst_lt_snd {pts : List Point3} {e : ℕ × ℕ}
    (he : e ∈ knnEdges pts) : e.1 < e.2 ∧ e.2 < pts.length := by
  obtain ⟨i, hi, c, hc, rfl⟩ := mem_knnEdges.mp he
  obtain ⟨hcl, hci⟩ := mem_bestK pts i c hc
  exact ⟨edgeKey_fst_lt_snd hci, edgeKey_snd_lt hi hcl⟩

/-- The mapped edge-key list of a single point has no duplicates. -/
theorem nodup_pointEdges (pts : List Point3) (i : ℕ) :
    ((bestK pts i).map (fun c => edgeKey i c.2)).Nodup := by
  have hcomp : (bestK pts i).map (fun c => edgeKey i c.2) =
      ((bestK pts i).map Prod.snd).map (edgeKey i) := by
    rw [List.map_map]
    rfl
  rw [hcomp]
  refine List.Nodup.map_on ?_ (snd_nodup_bestAux pts i pts.length)
  intro x hx y hy hxy
  rw [List.mem_map] at hx hy
  obtain ⟨c, hc, rfl⟩ := hx
  obtain ⟨c', hc', rfl⟩ := hy
  exact edgeKey_inj (mem_bestK pts i c hc).2 (mem_bestK pts i c' hc').2 hxy

theorem card_pointEdges (pts : List Point3) (i : ℕ)
    (h : CONNECT_K + 1 ≤ pts.length) (hi : i < pts.length) :
    (((bestK pts i).map (fun c => edgeKey i c.2)).toFinset).card = CONNECT_K := by
  rw [List.toFinset_card_of_nodup (nodup_pointEdges pts i), List.length_map,
    length_bestK pts i h hi]

theorem knnEdges_card_le (pts : List Point3) (h : CONNECT_K + 1 ≤ pts.length) :
    (knnEdges pts).card ≤ pts.length * CONNECT_K := by
  rw [knnEdges]
  refine le_trans Finset.card_biUnion_le ?_
  rw [Finset.sum_congr rfl
    (fun i hi => card_pointEdges pts i h (Finset.mem_range.mp hi))]
  rw [Finset.sum_const, Finset.card_range, smul_eq_mul]

/-- Double counting: every canonical edge is emitted by at most its two
endpoints, so the total of the per-point contributions is at most twice
the edge-set size. -/
theorem knnEdges_card_ge (pts : List Point3) (h : CONNECT_K + 1 ≤ pts.length) :
    pts.length * CONNECT_K ≤ 2 * (knnEdges pts).card := by
  classical
  set n := pts.length with hn
  set S : ℕ → Finset (ℕ × ℕ) :=
    fun i => ((bestK pts i).map (fun c => edgeKey i c.2)).toFinset with hS
  have hE : knnEdges pts = (Finset.range n).biUnion S := rfl
  have hSsub : ∀ i ∈ Finset.range n, S i ⊆ knnEdges pts := by
    intro i hi
    rw [hE]
    exact Finset.subset_biUnion_of_mem S hi
  have step1 : n * CONNECT_K = ∑ i in Finset.range n, (S i).card := by
    rw [Finset.sum_congr rfl
      (fun i hi => card_pointEdges pts i h (Finset.mem_range.mp hi))]
    rw [Finset.sum_const, Finset.card_range, smul_eq_mul]
  have step2 : ∀ i ∈ Finset.range n,
      (S i).card = ((knnEdges pts).filter (fun e => e ∈ S i)).card := by
    intro i hi
    rw [Finset.filter_mem_eq_inter, Finset.inter_eq_right.mpr (hSsub i hi)]
  have step3 : ∑ i in Finset.range n, (S i).card =
      ∑ e in knnEdges pts, ∑ i in Finset.range n, if e ∈ S i then 1 else 0 := by
    rw [Finset.sum_congr rfl step2]
    rw [Finset.sum_congr rfl
      (fun i _ => Finset.card_filter (fun e => e ∈ S i) (knnEdges pts))]
    exact Finset.sum_comm
  have step4 : ∀ e ∈ knnEdges pts,
      (∑ i in Finset.range n, if e ∈ S i then 1 else 0) ≤ 2 := by
    intro e _
    rw [← Finset.card_filter]
    have hsub : (Finset.range n).filter (fun i => e ∈ S i) ⊆ {e.1, e.2} := by
      intro i hi2
      rw [Finset.mem_filter] at hi2
      obtain ⟨-, hmem⟩ := hi2
      rw [hS, List.mem_toFinset, List.mem_map] at hmem
      obtain ⟨c, _, hek⟩ := hmem
      rcases edgeKey_endpoint i c.2 with hend | hend
      · rw [hek] at hend
        rw [Finset.mem_insert]
        exact Or.inl hend.symm
      · rw [hek] at hend
        rw [Finset.mem_insert, Finset.mem_singleton]
        exact Or.inr hend.symm
    refine le_trans (Finset.card_le_card hsub) ?_
    refine le_trans (Finset.card_insert_le e.1 {e.2}) ?_
    rw [Finset.card_singleton]
  calc n * CONNECT_K
      = ∑ e in knnEdges pts, ∑ i in Finset.range n, if e ∈ S i then 1 else 0 := by
        rw [step1, step3]
    _ ≤ ∑ _e in knnEdges pts, 2 := Finset.sum_le_sum step4
    _ = 2 * (knnEdges pts).card := by
        rw [Finset.sum_const, smul_eq_mul, mul_comm]

/-- C1: for `n ≥ CONNECT_K + 1` points, every point is assigned exactly
`CONNECT_K` outgoing nearest-neighbor candidates; the canonicalized edge
set contains no self edges and no duplicates (each edge is stored once
with its endpoints sorted), and its size lies between
`⌈n·K/2⌉ = (n·K + 1) / 2` and `n·K`. -/
theorem C1_knn_wireframe (pts : List Point3) (h : CONNECT_K + 1 ≤ pts.length) :
    (∀ i < pts.length, (bestK pts i).length = CONNECT_K) ∧
    (∀ e ∈ knnEdges pts, e.1 < e.2 ∧ e.2 < pts.length) ∧
    (∀ e ∈ knnEdges pts, (e.2, e.1) ∉ knnEdges pts) ∧
    ((pts.length * CONNECT_K + 1) / 2 ≤ (knnEdges pts).card) ∧
    ((knnEdges pts).card ≤ pts.length * CONNECT_K) := by
  refine ⟨fun i hi => length_bestK pts i h hi, fun e he => knnEdges_fst_lt_snd he,
    ?_, ?_, knnEdges_card_le pts h⟩
  · intro e he hrev
    have h1 := (knnEdges_fst_lt_snd he).1
    have h2 := (knnEdges_fst_lt_snd hrev).1
    simp only at h2
    omega
  · have := knnEdges_card_ge pts h
    omega

/-- C1 witness: three collinear points give each point 2 candidates and
an edge set of size 3 within the bounds. -/
theorem C1_knn_wireframe_witness :
    (CONNECT_K + 1 ≤ ([((0:ℚ), 0, 0), (1, 0, 0), (3, 0, 0)] : List Point3).length) ∧
    ((∀ i < ([((0:ℚ), 0, 0), (1, 0, 0), (3, 0, 0)] : List Point3).length,
        (bestK [((0:ℚ), 0, 0), (1, 0, 0), (3, 0, 0)] i).length = CONNECT_K) ∧
      (∀ e ∈ knnEdges [((0:ℚ), 0, 0), (1, 0, 0), (3, 0, 0)],
        e.1 < e.2 ∧ e.2 < ([((0:ℚ), 0, 0), (1, 0, 0), (3, 0, 0)] : List Point3).length) ∧
      (∀ e ∈ knnEdges [((0:ℚ), 0, 0), (1, 0, 0), (3, 0, 0)],
        (e.2, e.1) ∉ knnEdges [((0:ℚ), 0, 0), (1, 0, 0), (3, 0, 0)]) ∧
      ((([((0:ℚ), 0, 0), (1, 0, 0), (3, 0, 0)] : List Point3).length * CONNECT_K + 1) / 2 ≤
        (knnEdges [((0:ℚ), 0, 0), (1, 0, 0), (3, 0, 0)]).card) ∧
      ((knnEdges [((0:ℚ), 0, 0), (1, 0, 0), (3, 0, 0)]).card ≤
        ([((0:ℚ), 0, 0), (1, 0, 0), (3, 0, 0)] : List Point3).length * CONNECT_K)) :=
  ⟨by decide, C1_knn_wireframe [((0:ℚ), 0, 0), (1, 0, 0), (3, 0, 0)] (by decide)⟩

/-- With at most `CONNECT_K + 1` points, every point keeps every other
point as a candidate. -/
theorem bestK_snd_toFinset (pts : List Point3) (i : ℕ)
    (h : pts.length ≤ CONNECT_K + 1) (hi : i < pts.length) :
    ((bestK pts i).map Prod.snd).toFinset = (Finset.range pts.length).erase i := by
  apply Finset.eq_of_subset_of_card_le
  · intro j hj
    rw [List.mem_toFinset, List.mem_map] at hj
    obtain ⟨c, hc, rfl⟩ := hj
    obtain ⟨h1, h2⟩ := mem_bestK pts i c hc
    exact Finset.mem_erase.mpr ⟨fun hh => h2 hh.symm, Finset.mem_range.mpr h1⟩
  · rw [Finset.card_erase_of_mem (Finset.mem_range.mpr hi), Finset.card_range]
    rw [bestK, List.toFinset_card_of_nodup (snd_nodup_bestAux pts i pts.length),
      List.length_map, length_bestAux, if_pos hi]
    omega

/-- With at most `CONNECT_K + 1` points the deduplicated edge set is the
complete graph on the point indices. -/
theorem knnEdges_complete (pts : List Point3) (h : pts.length ≤ CONNECT_K + 1) :
    knnEdges pts =
      (Finset.range pts.length ×ˢ Finset.range pts.length).filter
        (fun p => p.1 < p.2) := by
  ext e
  constructor
  · intro he
    obtain ⟨hlt, hb⟩ := knnEdges_fst_lt_snd he
    rw [Finset.mem_filter, Finset.mem_product, Finset.mem_range, Finset.mem_range]
    exact ⟨⟨lt_trans hlt hb, hb⟩, hlt⟩
  · intro he
    rw [Finset.mem_filter, Finset.mem_product, Finset.mem_range, Finset.mem_range]
      at he
    obtain ⟨⟨h1, h2⟩, hlt⟩ := he
    have hmem : e.2 ∈ ((bestK pts e.1).map Prod.snd).toFinset := by
      rw [bestK_snd_toFinset pts e.1 h h1]
      exact Finset.mem_erase.mpr ⟨(ne_of_lt hlt).symm, Finset.mem_range.mpr h2⟩
    rw [List.mem_toFinset, List.mem_map] at hmem
    obtain ⟨c, hc, hc2⟩ := hmem
    refine mem_knnEdges.mpr ⟨e.1, h1, c, hc, ?_⟩
    rw [hc2, edgeKey, min_eq_left hlt.le, max_eq_right hlt.le]

/-- C10: with `2 ≤ n ≤ CONNECT_K + 1` points the wireframe connects every
point to all `n - 1` others, so the deduplicated edge set is exactly the
complete graph on the `n` indices, of size `n·(n-1)/2`; with a single
point the edge set is empty. -/
theorem C10_complete_graph (pts : List Point3) :
    (2 ≤ pts.length → pts.length ≤ CONNECT_K + 1 →
      knnEdges pts =
        (Finset.range pts.length ×ˢ Finset.range pts.length).filter
          (fun p => p.1 < p.2) ∧
      (knnEdges pts).card = pts.length * (pts.length - 1) / 2) ∧
    (pts.length = 1 → knnEdges pts = ∅) := by
  have hK : CONNECT_K = 2 := rfl
  constructor
  · intro h2 h3
    refine ⟨knnEdges_complete pts h3, ?_⟩
    rw [knnEdges_complete pts h3]
    have hn : pts.length = 2 ∨ pts.length = 3 := by omega
    rcases hn with hn | hn <;> rw [hn] <;> decide
  · intro h1
    rw [knnEdges_complete pts (by omega), h1]
    decide

/-- C10 witness: three collinear points (n = 3 = CONNECT_K + 1) produce
the complete graph on 3 vertices with 3 edges; one point produces no
edges. -/
theorem C10_complete_graph_witness :
    ((2 ≤ ([((0:ℚ), 0, 0), (1, 0, 0), (3, 0, 0)] : List Point3).length ∧
        ([((0:ℚ), 0, 0), (1, 0, 0), (3, 0, 0)] : List Point3).length ≤ CONNECT_K + 1) ∧
      ([((5:ℚ), 6, 7)] : List Point3).length = 1) ∧
    (knnEdges [((0:ℚ), 0, 0), (1, 0, 0), (3, 0, 0)] =
        (Finset.range ([((0:ℚ), 0, 0), (1, 0, 0), (3, 0, 0)] : List Point3).length ×ˢ
            Finset.range ([((0:ℚ), 0, 0), (1, 0, 0), (3, 0, 0)] : List Point3).length).filter
          (fun p => p.1 < p.2) ∧
      (knnEdges [((0:ℚ), 0, 0), (1, 0, 0), (3, 0, 0)]).card =
        ([((0:ℚ), 0, 0), (1, 0, 0), (3, 0, 0)] : List Point3).length *
          (([((0:ℚ), 0, 0), (1, 0, 0), (3, 0, 0)] : List Point3).length - 1) / 2) ∧
    (knnEdges [((5:ℚ), 6, 7)] = ∅) :=
  ⟨⟨⟨by decide, by decide⟩, by decide⟩,
    (C10_complete_graph [((0:ℚ), 0, 0), (1, 0, 0), (3, 0, 0)]).1 (by decide) (by decide),
    (C10_complete_graph [((5:ℚ), 6, 7)]).2 (by decide)⟩

end FocusTracker
